import Mathlib

/-!
Shallow embedding of `textile2bbcode/converter.py` (Textile → BBCode converter).

Strings are modelled as `List Char`; the public `convert` takes and returns
`String` at the boundary.  Python's regular expressions are embedded as
recursive functions whose behaviour matches the engine's leftmost-match,
greedy/lazy semantics on the concrete patterns used by the source
(`CODE_BLOCK_PATTERN`, `HEADING_PATTERN`, `INLINE_CODE_PATTERN` and the
list-item pattern `([#*]+)\s+(.*)`).  Python's `str.splitlines` universal
line-break handling is embedded directly, so the per-line functions only ever
receive lists free of line-break characters; the `.`-does-not-match-newline
subtlety of the patterns is therefore invisible and not modelled separately.

Python raises `IndexError` on `converted_lines[-1]` when the output list is
empty; the embedding models that possible exception with `Option`
(`none` = the exception), and totality of `convert` is proved, not assumed.
-/

/-- Python's `\s` / `str.strip()` whitespace class (the characters that can
actually occur in a Python `str`): ASCII whitespace, the C1/Unicode
whitespace code points. -/
def isPySpace (c : Char) : Bool :=
  c = ' ' || c = '\t' || c = '\n' || c = '\x0b' || c = '\x0c' || c = '\r' ||
  c = '\x1c' || c = '\x1d' || c = '\x1e' || c = '\x1f' ||
  c = '\x85' || c = '\xa0' || c = '\u1680' ||
  ('\u2000' ≤ c && c ≤ '\u200a') ||
  c = '\u2028' || c = '\u2029' || c = '\u202f' || c = '\u205f' || c = '\u3000'

/-- The line boundaries recognised by Python's `str.splitlines`. -/
def isLineBreak (c : Char) : Bool :=
  c = '\n' || c = '\r' || c = '\x0b' || c = '\x0c' ||
  c = '\x1c' || c = '\x1d' || c = '\x1e' ||
  c = '\x85' || c = '\u2028' || c = '\u2029'

/-- Python `str.lower` restricted to ASCII letters (the only case mapping the
repository's inputs exercise; other characters are left unchanged). -/
def toLowerPy (c : Char) : Char :=
  if 'A' ≤ c ∧ c ≤ 'Z' then Char.ofNat (c.toNat + 32) else c

/-- Python `str.strip()`: remove leading and trailing whitespace. -/
def stripPy (cs : List Char) : List Char :=
  ((cs.dropWhile isPySpace).reverse.dropWhile isPySpace).reverse

/-- Python `str.strip("\n")`: remove leading and trailing newline characters
only (used on the captured code-block body, line 39 of the source). -/
def stripNewlines (cs : List Char) : List Char :=
  ((cs.dropWhile (fun c => c = '\n')).reverse.dropWhile (fun c => c = '\n')).reverse

/-- Helper for `splitlines`: `acc` holds the current (unfinished) line in
reverse.  `\r\n` counts as a single boundary; a trailing boundary does not
produce a final empty line, matching Python. -/
def splitlinesAux : List Char → List Char → List (List Char)
  | [], acc => if acc.isEmpty then [] else [acc.reverse]
  | '\r' :: '\n' :: rest, acc => acc.reverse :: splitlinesAux rest []
  | c :: rest, acc =>
    if isLineBreak c then acc.reverse :: splitlinesAux rest []
    else splitlinesAux rest (c :: acc)

/-- Python `str.splitlines()`. -/
def splitlines (cs : List Char) : List (List Char) :=
  splitlinesAux cs []

/-- Case-insensitive literal match (re.IGNORECASE): if `cs` starts with `lit`
up to `toLowerPy`, return the rest of `cs`, else `none`. -/
def dropLitCI : List Char → List Char → Option (List Char)
  | [], cs => some cs
  | _ :: _, [] => none
  | p :: ps, c :: cs => if toLowerPy c = toLowerPy p then dropLitCI ps cs else none

/-- The optional group `(?: class="([^"]+)")?` of `CODE_BLOCK_PATTERN`:
match ` class="`, capture one or more non-quote characters, then the closing
quote.  Returns the captured language and the remaining input. -/
def matchLangAttr (cs : List Char) : Option (List Char × List Char) :=
  (dropLitCI " class=\"".data cs).bind (fun cs1 =>
    let lang := cs1.takeWhile (fun c => c ≠ '"')
    let rest := cs1.dropWhile (fun c => c ≠ '"')
    if lang.isEmpty then none
    else
      match rest with
      | '"' :: rest' => some (lang, rest')
      | _ => none)

/-- The closing literal of `CODE_BLOCK_PATTERN`. -/
def closeTag : List Char := "</code></pre>".data

/-- Body scan for `\s*(.*?)\s*</code></pre>` (lazy body, DOTALL): the body
ends at the earliest position from which skipping a whitespace run lands
exactly on `</code></pre>`; the trailing `\s*` is forced to be that whole run
because the literal starts with a non-whitespace character.  `fuel` only
bounds the recursion; callers pass `cs.length`, which each step consumes. -/
def scanBodyAux : Nat → List Char → Option (List Char × List Char)
  | 0, cs => (dropLitCI closeTag (cs.dropWhile isPySpace)).map (fun rest => ([], rest))
  | _ + 1, [] =>
    (dropLitCI closeTag (([] : List Char).dropWhile isPySpace)).map (fun rest => ([], rest))
  | fuel + 1, c :: cs' =>
    (dropLitCI closeTag ((c :: cs').dropWhile isPySpace)).elim
      ((scanBodyAux fuel cs').map (fun p => (c :: p.1, p.2)))
      (fun rest => some ([], rest))

/-- Attempt `CODE_BLOCK_PATTERN` at the start of `cs`: `<pre><code`, the
optional class group, `>`, then the leading `\s*` (greedy) and the lazy body.
Returns (captured language, captured body, input after the match). -/
def matchCodeBlockAt (cs : List Char) : Option (Option (List Char) × List Char × List Char) :=
  (dropLitCI "<pre><code".data cs).bind (fun cs1 =>
    match matchLangAttr cs1 with
    | some (lang, cs2) =>
      match cs2 with
      | '>' :: cs3 =>
        let body0 := cs3.dropWhile isPySpace
        (scanBodyAux body0.length body0).map (fun p => (some lang, p.1, p.2))
      | _ => none
    | none =>
      -- the optional group did not participate: `>` must follow directly
      match cs1 with
      | '>' :: cs3 =>
        let body0 := cs3.dropWhile isPySpace
        (scanBodyAux body0.length body0).map (fun p => (none, p.1, p.2))
      | _ => none)

/-- `_escape_bbcode`: `text.replace("[", "&#91;").replace("]", "&#93;")`.
The first replacement introduces no `]`, so the two sequential passes equal
one character-wise substitution. -/
def escape_bbcode (cs : List Char) : List Char :=
  (cs.map (fun c =>
    if c = '[' then "&#91;".data
    else if c = ']' then "&#93;".data
    else [c])).foldr (· ++ ·) []

/-- The `_to_bbcode` replacement function inside `_replace_code_blocks`.
`language` is the optional capture; Python's `if language` is false for both
`None` and the empty string. -/
def to_bbcode (language : Option (List Char)) (body : List Char) : List Char :=
  let language_suffix :=
    match language with
    | some l => if l.isEmpty then [] else '=' :: l.map toLowerPy
    | none => []
  let cleaned_body := stripNewlines body
  let escaped_header := escape_bbcode ("[code".data ++ language_suffix ++ [']'])
  let escaped_footer := escape_bbcode "[/code]".data
  List.intercalate ['\n']
    ["[CODE]".data, escaped_header, cleaned_body, escaped_footer, "[/CODE]".data]

/-- `CODE_BLOCK_PATTERN.sub(_to_bbcode, text)`: scan left to right, replace
each leftmost match and continue after it.  `fuel` bounds the scan; each step
consumes at least one input character (a successful match consumes the
literals `<pre><code` and `</code></pre>` at least), so `cs.length` suffices. -/
def replaceCodeBlocksAux : Nat → List Char → List Char
  | 0, cs => cs
  | _ + 1, [] => []
  | fuel + 1, c :: cs =>
    match matchCodeBlockAt (c :: cs) with
    | some (lang, body, rest) => to_bbcode lang body ++ replaceCodeBlocksAux fuel rest
    | none => c :: replaceCodeBlocksAux fuel cs

/-- `_replace_code_blocks`. -/
def replace_code_blocks (cs : List Char) : List Char :=
  replaceCodeBlocksAux cs.length cs

/-- For `INLINE_CODE_PATTERN = @(.*?)@`: from the position after an opening
`@`, find the lazy capture and the closing `@`.  `.` does not match `\n`,
so a newline aborts the attempt. -/
def findClose : List Char → Option (List Char × List Char)
  | [] => none
  | c :: rest =>
    if c = '@' then some ([], rest)
    else if c = '\n' then none
    else (findClose rest).map (fun p => (c :: p.1, p.2))

/-- Scan for `INLINE_CODE_PATTERN.sub`: on a failed attempt at an `@` the
engine moves one character forward.  `fuel` bounds the scan; each step
consumes at least one character, so `cs.length` suffices. -/
def inlineAux : Nat → List Char → List Char
  | 0, cs => cs
  | _ + 1, [] => []
  | fuel + 1, c :: cs =>
    if c = '@' then
      match findClose cs with
      | some (inner, rest) =>
        "[code]".data ++ inner ++ "[/code]".data ++ inlineAux fuel rest
      | none => c :: inlineAux fuel cs
    else c :: inlineAux fuel cs

/-- `_convert_inline_code`. -/
def convert_inline_code (cs : List Char) : List Char :=
  inlineAux cs.length cs

/-- `HEADING_SIZES.get(level, "12pt")`. -/
def headingSize (level : Char) : List Char :=
  if level = '1' then "18pt".data
  else if level = '2' then "16pt".data
  else if level = '3' then "14pt".data
  else if level = '4' then "12pt".data
  else if level = '5' then "10pt".data
  else if level = '6' then "8pt".data
  else "12pt".data

/-- `HEADING_PATTERN.match(line)` for `^h([1-6])\.\s+(.*)$`: returns the
level digit and the second capture (the text after the greedy `\s+` run). -/
def matchHeading (line : List Char) : Option (Char × List Char) :=
  match line with
  | 'h' :: d :: '.' :: rest =>
    if (('1' ≤ d && d ≤ '6') &&
        (match rest with
         | c :: _ => isPySpace c
         | [] => false)) then
      some (d, rest.dropWhile isPySpace)
    else none
  | _ => none

/-- `_convert_line`: heading rendering, else inline-code conversion. -/
def convert_line (line : List Char) : List Char :=
  match matchHeading line with
  | some (level, title) =>
    let size := headingSize level
    let text := stripPy title
    "[SIZE=".data ++ size ++ "][B]".data ++ text ++ "[/B][/SIZE]".data
  | none => convert_inline_code line

/-- `_start_list`: `LIST_MARKERS.get(marker, "[list]")`. -/
def start_list (marker : Char) : List Char :=
  if marker = '#' then "[list=1]".data else "[list]".data

/-- `_close_list`: `"[/list]" if active else None`.  Every stack entry is a
single marker character — a non-empty, hence truthy, one-character string in
Python — so the result is always `"[/list]"`. -/
def close_list (_active : Char) : List Char :=
  "[/list]".data

/-- `_close_list_stack`: pop every level, appending a closing tag for each.
`lines` is the output accumulated in reverse (newest line first).  Python pops
from the top of the stack; since every pop emits the identical `"[/list]"`
line, folding over the stack emits the same line sequence. -/
def close_list_stack (lines : List (List Char)) (stack : List Char) :
    List (List Char) × List Char :=
  (stack.foldl (fun acc m => close_list m :: acc) lines, [])

/-- The `for idx, marker in enumerate(new_levels)` loop of `_sync_list_levels`,
run position by position from the bottom of the stack (index 0 first: the head
of the stack list is the bottom).  On the first mismatch — or when the stack is
shallower — Python closes every remaining open level and then opens one fresh
list per remaining target marker.  Precondition in use: the caller has already
trimmed the stack to at most the target depth. -/
def sync_for (lines : List (List Char)) :
    List Char → List Char → List (List Char) × List Char
  | s :: ss, m :: ms =>
    if s = m then
      let r := sync_for lines ss ms
      (r.1, s :: r.2)
    else
      let lines1 := (s :: ss).foldl (fun acc x => close_list x :: acc) lines
      let lines2 := (m :: ms).foldl (fun acc x => start_list x :: acc) lines1
      (lines2, m :: ms)
  | [], m :: ms =>
    ((m :: ms).foldl (fun acc x => start_list x :: acc) lines, m :: ms)
  | st, [] => (lines, st)

/-- `_sync_list_levels`: first the `while len(stack) > len(new_levels)` trim
(close one level per excess entry), then the position-by-position loop. -/
def sync_list_levels (lines : List (List Char)) (stack : List Char)
    (markers : List Char) : List (List Char) × List Char :=
  let lines1 := (stack.drop markers.length).foldl (fun acc m => close_list m :: acc) lines
  sync_for lines1 (stack.take markers.length) markers

/-- The list-item pattern `re.match(r"^([#*]+)\s+(.*)$", raw_line)`: a greedy
run of marker characters, at least one whitespace character (greedy `\s+`),
then the content capture.  Returns (markers, content). -/
def matchListItem (line : List Char) : Option (List Char × List Char) :=
  let ms := line.takeWhile (fun c => c = '#' || c = '*')
  let rest := line.dropWhile (fun c => c = '#' || c = '*')
  if ms.isEmpty then none
  else
    match rest with
    | [] => none
    | c :: _ =>
      if isPySpace c then some (ms, rest.dropWhile isPySpace) else none

/-- One iteration of the `for raw_line in text.splitlines()` loop of
`convert`.  `lines` is the accumulated output in reverse.  The continuation
branch indexes `converted_lines[-1]`; with an empty output list Python would
raise `IndexError`, modelled as `none` (proved unreachable below). -/
def stepLine (lines : List (List Char)) (stack : List Char) (raw_line : List Char) :
    Option (List (List Char) × List Char) :=
  match matchListItem raw_line with
  | some (markers, content) =>
    let r := sync_list_levels lines stack markers
    some (("[*]".data ++ convert_inline_code (stripPy content)) :: r.1, r.2)
  | none =>
    if stack ≠ [] ∧ stripPy raw_line ≠ [] then
      match lines with
      | prev :: rest =>
        some ((prev ++ '\n' :: convert_inline_code (stripPy raw_line)) :: rest, stack)
      | [] => none
    else if stack ≠ [] ∧ stripPy raw_line = [] then
      some (close_list_stack lines stack)
    else
      some (convert_line raw_line :: lines, stack)

/-- The whole line loop of `convert`. -/
def runLines : List (List Char) → List (List Char) → List Char →
    Option (List (List Char) × List Char)
  | [], lines, stack => some (lines, stack)
  | l :: ls, lines, stack =>
    (stepLine lines stack l).bind (fun p => runLines ls p.1 p.2)

/-- `convert` up to (but not including) the final join: the rewritten text is
split into lines, the loop is run from an empty output and an empty stack, and
the remaining open levels are closed.  Returns (output lines in reverse, final
stack). -/
def convertState (text : String) : Option (List (List Char) × List Char) :=
  (runLines (splitlines (replace_code_blocks text.data)) [] []).map
    (fun p => close_list_stack p.1 p.2)

/-- `convert(text)`.  The source's final `filter(lambda line: line is not
None, ...)` never removes anything (the accumulator is a `list[str]`), so the
join is taken directly. -/
def convert (text : String) : Option String :=
  (convertState text).map (fun p => String.mk (List.intercalate ['\n'] p.1.reverse))

/-! ### Generic list lemmas used by the claim proofs -/

theorem head?_dropWhile_false (p : Char → Bool) :
    ∀ (l : List Char) (x : Char), (l.dropWhile p).head? = some x → p x = false := by
  intro l
  induction l with
  | nil => intro x h; simp [List.dropWhile] at h
  | cons a l ih =>
    intro x h
    by_cases hp : p a = true
    · rw [List.dropWhile_cons_of_pos hp] at h
      exact ih x h
    · rw [List.dropWhile_cons_of_neg hp] at h
      simp only [List.head?_cons, Option.some.injEq] at h
      rw [← h]
      simpa using hp

theorem takeWhile_append_all (p : Char → Bool) :
    ∀ (l1 l2 : List Char), (∀ x ∈ l1, p x = true) →
      (l1 ++ l2).takeWhile p = l1 ++ l2.takeWhile p := by
  intro l1
  induction l1 with
  | nil => intro l2 _; simp
  | cons a l ih =>
    intro l2 h
    have ha : p a = true := h a (by simp)
    simp only [List.cons_append, List.takeWhile_cons_of_pos ha]
    rw [ih l2 (fun x hx => h x (by simp [hx]))]

theorem dropWhile_append_all (p : Char → Bool) :
    ∀ (l1 l2 : List Char), (∀ x ∈ l1, p x = true) →
      (l1 ++ l2).dropWhile p = l2.dropWhile p := by
  intro l1
  induction l1 with
  | nil => intro l2 _; simp
  | cons a l ih =>
    intro l2 h
    have ha : p a = true := h a (by simp)
    simp only [List.cons_append, List.dropWhile_cons_of_pos ha]
    exact ih l2 (fun x hx => h x (by simp [hx]))

theorem takeWhile_nil_of_head (p : Char → Bool) (l : List Char)
    (h : ∀ x, l.head? = some x → p x = false) : l.takeWhile p = [] := by
  cases l with
  | nil => simp
  | cons a l =>
    have ha : p a = false := h a (by simp)
    have ha' : ¬ p a = true := by simp [ha]
    simp [List.takeWhile_cons_of_neg ha']

theorem dropWhile_self_of_head (p : Char → Bool) (l : List Char)
    (h : ∀ x, l.head? = some x → p x = false) : l.dropWhile p = l := by
  cases l with
  | nil => simp
  | cons a l =>
    have ha : p a = false := h a (by simp)
    have ha' : ¬ p a = true := by simp [ha]
    simp [List.dropWhile_cons_of_neg ha']

theorem dropWhile_dropWhile (p : Char → Bool) (l : List Char) :
    (l.dropWhile p).dropWhile p = l.dropWhile p :=
  dropWhile_self_of_head p _ (head?_dropWhile_false p l)

/-! ### Claim C2 -/

/-- C2: `convert "# A\n## B\n# C\n\nD"` produces exactly the line sequence
`[list=1]`, `[*]A`, `[list=1]`, `[*]B`, `[/list]`, `[*]C`, `[/list]`, `D`:
the nested level is opened and closed around item B, the outer list is closed
before the plain line, and D appears outside every list tag. -/
theorem claim_C2_nested_list_example :
    convert "# A\n## B\n# C\n\nD" =
      some "[list=1]\n[*]A\n[list=1]\n[*]B\n[/list]\n[*]C\n[/list]\nD" := by
  rfl

/-! ### Claim C3 -/

/-- C3 counterexample: the claim says the list-item rule does not apply to a
line whose leading markers mix the two kinds, such as `"#* x"`; but the
pattern `([#*]+)\s+(.*)` accepts the mixed run, `convert` treats the line as
a list item two levels deep (an ordered list containing an unordered one). -/
theorem claim_C3_mixed_markers_counterexample :
    matchListItem "#* x".data = some ("#*".data, "x".data) ∧
    convert "#* x" = some "[list=1]\n[list]\n[*]x\n[/list]\n[/list]" := by
  exact ⟨rfl, rfl⟩

/-! ### Claim C4 -/

/-- C4 counterexample: the claim says only leading/trailing newline characters
adjacent to the delimiters are trimmed from a code-block body and that spaces
and tabs are preserved; but on `<pre><code>\t x \t</code></pre>` the emitted
body line is `x` — the surrounding tab and space characters are stripped by
the pattern's `\s*`, not preserved. -/
theorem claim_C4_space_trim_counterexample :
    convert "<pre><code>\t x \t</code></pre>" =
      some "[CODE]\n&#91;code&#93;\nx\n&#91;/code&#93;\n[/CODE]" ∧
    convert "<pre><code>\t x \t</code></pre>" ≠
      some "[CODE]\n&#91;code&#93;\n\t x \t\n&#91;/code&#93;\n[/CODE]" := by
  exact ⟨rfl, by decide⟩

/-! ### Claim C6 -/

theorem foldr_append_shift (l : List (List Char)) (X : List Char) :
    l.foldr (· ++ ·) X = l.foldr (· ++ ·) [] ++ X := by
  induction l with
  | nil => simp
  | cons a l ih => simp [List.foldr_cons, ih, List.append_assoc]

theorem escape_bbcode_append (a b : List Char) :
    escape_bbcode (a ++ b) = escape_bbcode a ++ escape_bbcode b := by
  unfold escape_bbcode
  rw [List.map_append, List.foldr_append, foldr_append_shift]

/-- C6: under the escaped-wrapper policy,
`convert "<pre><code class=\"python\">\nprint('hi')\n</code></pre>"` yields
exactly the five lines `[CODE]`, `&#91;code=python&#93;`, `print('hi')`,
`&#91;/code&#93;`, `[/CODE]`; the language tag is lower-cased (second
conjunct concretely, fifth conjunct in general), and with no class attribute
the `=LANG` suffix is omitted entirely (third and fourth conjuncts: plain
escaped `[code]`). -/
theorem claim_C6_code_block_rendering :
    convert "<pre><code class=\"python\">\nprint('hi')\n</code></pre>" =
      some "[CODE]\n&#91;code=python&#93;\nprint('hi')\n&#91;/code&#93;\n[/CODE]" ∧
    convert "<pre><code class=\"PyThOn\">\nx\n</code></pre>" =
      some "[CODE]\n&#91;code=python&#93;\nx\n&#91;/code&#93;\n[/CODE]" ∧
    convert "<pre><code>\nx\n</code></pre>" =
      some "[CODE]\n&#91;code&#93;\nx\n&#91;/code&#93;\n[/CODE]" ∧
    (∀ body, to_bbcode none body =
      List.intercalate ['\n'] ["[CODE]".data, "&#91;code&#93;".data,
        stripNewlines body, "&#91;/code&#93;".data, "[/CODE]".data]) ∧
    (∀ lang body, lang ≠ [] → to_bbcode (some lang) body =
      List.intercalate ['\n'] ["[CODE]".data,
        "&#91;code=".data ++ escape_bbcode (lang.map toLowerPy) ++ "&#93;".data,
        stripNewlines body, "&#91;/code&#93;".data, "[/CODE]".data]) := by
  refine ⟨rfl, rfl, rfl, fun body => rfl, fun lang body hlang => ?_⟩
  have hne : lang.isEmpty = false := by
    cases lang with
    | nil => exact absurd rfl hlang
    | cons a l => rfl
  show to_bbcode (some lang) body = _
  unfold to_bbcode
  simp only [hne, Bool.false_eq_true, if_false]
  have hsplit : ("[code".data ++ ('=' :: lang.map toLowerPy) ++ [']']) =
      ("[code=".data ++ (lang.map toLowerPy ++ [']'])) := by simp
  rw [hsplit, escape_bbcode_append, escape_bbcode_append]
  rfl

/-! ### Claim C10 -/

/-- C10 counterexample: the claim says the output never ends with a line
separator; but `convert "\n\n"` — two lines, both empty after splitting —
returns `"\n"`, whose last character is the separator `\n` itself. -/
theorem claim_C10_trailing_separator_counterexample :
    convert "\n\n" = some "\n" ∧
    "\n".data.getLast? = some '\n' ∧ isLineBreak '\n' = true := by
  exact ⟨rfl, rfl, rfl⟩

/-! ### Claim C1 -/

theorem sync_for_snd (lines : List (List Char)) :
    ∀ (st mk : List Char), st.length ≤ mk.length → (sync_for lines st mk).2 = mk := by
  intro st
  induction st with
  | nil =>
    intro mk _
    cases mk with
    | nil => rfl
    | cons m ms => rfl
  | cons s ss ih =>
    intro mk hlen
    cases mk with
    | nil => simp at hlen
    | cons m ms =>
      by_cases hsm : s = m
      · subst hsm
        have hrec := ih ms (by simpa using hlen)
        simp only [sync_for, if_pos rfl]
        simp [hrec]
      · simp [sync_for, hsm]

theorem sync_list_levels_snd (lines : List (List Char)) (stack markers : List Char) :
    (sync_list_levels lines stack markers).2 = markers := by
  unfold sync_list_levels
  apply sync_for_snd
  rw [List.length_take]
  exact inf_le_left

/-- C1: the list stack starts empty, is changed only by the list-level
synchronizing operations, after a list-item line it equals exactly the line's
marker sequence, and by the time `convert` returns every level has been
closed: `sync_list_levels` always leaves the stack equal to the markers
(first conjunct); `close_list_stack` always leaves it empty (second
conjunct); a loop step leaves the stack equal to the markers of a matched
list-item line and otherwise either unchanged or emptied by the full close
(third conjunct); and the final state of `convert` (which starts the loop
from the empty stack) always carries the empty stack (fourth conjunct). -/
theorem claim_C1_list_stack_mirror :
    (∀ lines stack markers, (sync_list_levels lines stack markers).2 = markers) ∧
    (∀ lines stack, (close_list_stack lines stack).2 = []) ∧
    (∀ lines stack raw out2 st2, stepLine lines stack raw = some (out2, st2) →
      (∀ m c, matchListItem raw = some (m, c) → st2 = m) ∧
      (matchListItem raw = none → st2 = stack ∨ st2 = [])) ∧
    (∀ text out st, convertState text = some (out, st) → st = []) := by
  refine ⟨fun lines stack markers => sync_list_levels_snd lines stack markers,
          fun lines stack => rfl, ?_, ?_⟩
  · intro lines stack raw out2 st2 h
    cases hmo : matchListItem raw with
    | some mc =>
      obtain ⟨m0, c0⟩ := mc
      unfold stepLine at h
      rw [hmo] at h
      simp only [Option.some.injEq, Prod.mk.injEq] at h
      refine ⟨?_, ?_⟩
      · intro m c hmc
        simp only [Option.some.injEq, Prod.mk.injEq] at hmc
        rw [← h.2, ← hmc.1]
        exact sync_list_levels_snd lines stack m0
      · intro hnone
        exact absurd hnone (by simp)
    | none =>
      unfold stepLine at h
      rw [hmo] at h
      refine ⟨?_, ?_⟩
      · intro m c hmc
        exact absurd hmc (by simp)
      · intro _
        by_cases h1 : stack ≠ [] ∧ stripPy raw ≠ []
        · rw [if_pos h1] at h
          cases lines with
          | nil => exact absurd h (by simp)
          | cons prev rest =>
            simp only [Option.some.injEq, Prod.mk.injEq] at h
            exact Or.inl h.2.symm
        · rw [if_neg h1] at h
          by_cases h2 : stack ≠ [] ∧ stripPy raw = []
          · rw [if_pos h2] at h
            simp only [close_list_stack, Option.some.injEq, Prod.mk.injEq] at h
            exact Or.inr h.2.symm
          · rw [if_neg h2] at h
            simp only [Option.some.injEq, Prod.mk.injEq] at h
            exact Or.inl h.2.symm
  · intro text out st h
    unfold convertState at h
    cases hr : runLines (splitlines (replace_code_blocks text.data)) [] [] with
    | none => rw [hr] at h; exact absurd h (by simp)
    | some p =>
      rw [hr] at h
      simp only [Option.map_some', Option.some.injEq] at h
      have hcl : (close_list_stack p.1 p.2).2 = [] := rfl
      rw [h] at hcl
      exact hcl

/-- C1 witness: the invariant instantiated at concrete inputs — a
deeper-to-shallower marker change, a two-level close, the step on the line
`"# A"` from the initial state, and the final state of `convert "x"`. -/
theorem claim_C1_list_stack_mirror_witness :
    ((sync_list_levels [] ['#'] ['*', '*']).2 = ['*', '*']) ∧
    ((close_list_stack [] ['#', '*']).2 = []) ∧
    ((∀ m c, matchListItem "# A".data = some (m, c) → (['#'] : List Char) = m) ∧
      (matchListItem "# A".data = none →
        (['#'] : List Char) = [] ∨ (['#'] : List Char) = [])) ∧
    (([] : List Char) = []) :=
  ⟨claim_C1_list_stack_mirror.1 [] ['#'] ['*', '*'],
   claim_C1_list_stack_mirror.2.1 [] ['#', '*'],
   claim_C1_list_stack_mirror.2.2.1 [] [] "# A".data
     ["[*]A".data, "[list=1]".data] ['#'] rfl,
   claim_C1_list_stack_mirror.2.2.2 "x" ["x".data] [] rfl⟩

/-! ### Claim C5 -/

/-- C5: a non-blank line that does not match the list-item pattern and is
processed while the list stack is non-empty is appended to the previous
output line joined by a newline (its trimmed, inline-code-converted text),
rather than starting a new output line: the output line count is unchanged
and the stack is neither pushed nor popped. -/
theorem claim_C5_continuation_line (lines : List (List Char)) (stack : List Char)
    (raw prev : List Char) (rest : List (List Char))
    (hm : matchListItem raw = none) (hst : stack ≠ []) (hnb : stripPy raw ≠ [])
    (hl : lines = prev :: rest) :
    stepLine lines stack raw =
      some ((prev ++ '\n' :: convert_inline_code (stripPy raw)) :: rest, stack) ∧
    ∀ out2 st2, stepLine lines stack raw = some (out2, st2) →
      out2.length = lines.length ∧ st2 = stack := by
  subst hl
  have hstep : stepLine (prev :: rest) stack raw =
      some ((prev ++ '\n' :: convert_inline_code (stripPy raw)) :: rest, stack) := by
    unfold stepLine
    rw [hm, if_pos (⟨hst, hnb⟩ : stack ≠ [] ∧ stripPy raw ≠ [])]
  refine ⟨hstep, ?_⟩
  intro out2 st2 h
  rw [hstep] at h
  simp only [Option.some.injEq, Prod.mk.injEq] at h
  exact ⟨by rw [← h.1]; simp, h.2.symm⟩

/-- C5 witness: after the list item `"# A"` (output lines `[list=1]`, `[*]A`,
stack `#`), the non-blank plain line `" B b "` is glued onto `[*]A` with a
newline and the stack stays `#`. -/
theorem claim_C5_continuation_line_witness :
    stepLine ["[*]A".data, "[list=1]".data] ['#'] " B b ".data =
      some ([("[*]A".data ++ '\n' :: convert_inline_code (stripPy " B b ".data)),
             "[list=1]".data], ['#']) ∧
    ∀ out2 st2, stepLine ["[*]A".data, "[list=1]".data] ['#'] " B b ".data =
        some (out2, st2) →
      out2.length = (["[*]A".data, "[list=1]".data] : List (List Char)).length ∧
      st2 = ['#'] := by
  have h := claim_C5_continuation_line ["[*]A".data, "[list=1]".data] ['#']
    " B b ".data "[*]A".data ["[list=1]".data] rfl (by decide) (by decide) rfl
  exact ⟨h.1, h.2⟩

/-! ### Claim C7 -/

theorem stripPy_dropWhile (l : List Char) :
    stripPy (l.dropWhile isPySpace) = stripPy l := by
  unfold stripPy
  rw [dropWhile_dropWhile]

/-- C7: a line of the form `hN. T` — `h`, a single digit 1–6, a literal dot,
one or more whitespace characters, then title text — converts to
`[SIZE=Spt][B]T'[/B][/SIZE]` where `T'` is the title stripped of surrounding
whitespace; the title is used as-is, with no inline-code conversion (first
conjunct); the size map is 1→18pt, 2→16pt, 3→14pt, 4→12pt, 5→10pt, 6→8pt
(second conjunct); a line the heading pattern does not match is not rendered
as a heading and falls through to inline-code conversion (third conjunct). -/
theorem claim_C7_heading_rendering :
    (∀ (d : Char) (w t : List Char), '1' ≤ d → d ≤ '6' → w ≠ [] →
      (∀ x ∈ w, isPySpace x = true) →
      convert_line ('h' :: d :: '.' :: (w ++ t)) =
        "[SIZE=".data ++ headingSize d ++ "][B]".data ++ stripPy t ++
          "[/B][/SIZE]".data) ∧
    (headingSize '1' = "18pt".data ∧ headingSize '2' = "16pt".data ∧
     headingSize '3' = "14pt".data ∧ headingSize '4' = "12pt".data ∧
     headingSize '5' = "10pt".data ∧ headingSize '6' = "8pt".data) ∧
    (∀ line, matchHeading line = none →
      convert_line line = convert_inline_code line) := by
  refine ⟨?_, by refine ⟨rfl, rfl, rfl, rfl, rfl, rfl⟩, ?_⟩
  · intro d w t h1 h6 hw hws
    cases w with
    | nil => exact absurd rfl hw
    | cons w0 w' =>
      have hw0 : isPySpace w0 = true := hws w0 (by simp)
      have hdrop : (w0 :: (w' ++ t)).dropWhile isPySpace = t.dropWhile isPySpace := by
        rw [List.dropWhile_cons_of_pos hw0,
          dropWhile_append_all isPySpace w' t (fun x hx => hws x (by simp [hx]))]
      have hmh : matchHeading ('h' :: d :: '.' :: (w0 :: (w' ++ t)))
          = some (d, t.dropWhile isPySpace) := by
        simp [matchHeading, h1, h6, hw0, hdrop]
      show convert_line ('h' :: d :: '.' :: (w0 :: (w' ++ t))) = _
      unfold convert_line
      rw [hmh]
      simp only [stripPy_dropWhile]
  · intro line hnone
    unfold convert_line
    rw [hnone]

/-- C7 witness: the heading rule at the concrete line `"h2.  My Title "`. -/
theorem claim_C7_heading_rendering_witness :
    convert_line ('h' :: '2' :: '.' :: ([' ', ' '] ++ "My Title ".data)) =
      "[SIZE=".data ++ headingSize '2' ++ "][B]".data ++
        stripPy "My Title ".data ++ "[/B][/SIZE]".data ∧
    convert_line "x h1. y".data = convert_inline_code "x h1. y".data :=
  ⟨claim_C7_heading_rendering.1 '2' [' ', ' '] "My Title ".data
      (by decide) (by decide) (by decide) (by decide),
   claim_C7_heading_rendering.2.2 "x h1. y".data rfl⟩

/-! ### Claim C8 -/

theorem findClose_at_head (rest : List Char) : findClose ('@' :: rest) = some ([], rest) :=
  rfl

theorem findClose_cons_ne (c : Char) (rest : List Char) (hc : c ≠ '@') (hn : c ≠ '\n') :
    findClose (c :: rest) = (findClose rest).map (fun p => (c :: p.1, p.2)) := by
  simp only [findClose, if_neg hc, if_neg hn]

theorem inlineAux_at_some (fuel : Nat) (cs inner rest : List Char)
    (h : findClose cs = some (inner, rest)) :
    inlineAux (fuel + 1) ('@' :: cs) =
      "[code]".data ++ inner ++ "[/code]".data ++ inlineAux fuel rest := by
  simp only [inlineAux, h, if_true]

theorem inlineAux_at_none (fuel : Nat) (cs : List Char) (h : findClose cs = none) :
    inlineAux (fuel + 1) ('@' :: cs) = '@' :: inlineAux fuel cs := by
  simp only [inlineAux, h, if_true]

theorem inlineAux_cons_ne (fuel : Nat) (c : Char) (cs : List Char) (hc : c ≠ '@') :
    inlineAux (fuel + 1) (c :: cs) = c :: inlineAux fuel cs := by
  simp only [inlineAux, if_neg hc]

theorem findClose_some_eq :
    ∀ (cs i r : List Char), findClose cs = some (i, r) →
      cs = i ++ '@' :: r ∧ '@' ∉ i ∧ '\n' ∉ i := by
  intro cs
  induction cs with
  | nil => intro i r h; simp [findClose] at h
  | cons c rest ih =>
    intro i r h
    by_cases hc : c = '@'
    · subst hc
      rw [findClose_at_head] at h
      simp only [Option.some.injEq, Prod.mk.injEq] at h
      rw [← h.1, ← h.2]
      exact ⟨rfl, by simp, by simp⟩
    · by_cases hn : c = '\n'
      · subst hn
        simp [findClose, hc] at h
      · rw [findClose_cons_ne c rest hc hn] at h
        cases hfc : findClose rest with
        | none => rw [hfc] at h; simp at h
        | some p =>
          obtain ⟨i', r'⟩ := p
          rw [hfc] at h
          simp only [Option.map_some', Option.some.injEq, Prod.mk.injEq] at h
          obtain ⟨hi, hr⟩ := h
          obtain ⟨heq, hni, hnn⟩ := ih i' r' hfc
          subst hr
          rw [← hi]
          refine ⟨by rw [heq]; rfl, ?_, ?_⟩
          · intro hmem
            rcases List.mem_cons.mp hmem with h1 | h1
            · exact hc h1.symm
            · exact hni h1
          · intro hmem
            rcases List.mem_cons.mp hmem with h1 | h1
            · exact hn h1.symm
            · exact hnn h1

theorem findClose_append (i r : List Char) (hi : '@' ∉ i) (hn : '\n' ∉ i) :
    findClose (i ++ '@' :: r) = some (i, r) := by
  induction i with
  | nil => simp [findClose]
  | cons c i' ih =>
    have hc : c ≠ '@' := fun e => hi (by simp [e])
    have hcn : c ≠ '\n' := fun e => hn (by simp [e])
    have ih' := ih (fun h => hi (by simp [h])) (fun h => hn (by simp [h]))
    rw [List.cons_append, findClose_cons_ne c _ hc hcn, ih', Option.map_some']

theorem inlineAux_congr :
    ∀ (f1 f2 : Nat) (cs : List Char), cs.length ≤ f1 → cs.length ≤ f2 →
      inlineAux f1 cs = inlineAux f2 cs := by
  intro f1
  induction f1 with
  | zero =>
    intro f2 cs h1 _
    have : cs = [] := List.eq_nil_of_length_eq_zero (Nat.le_zero.mp h1)
    subst this
    cases f2 <;> rfl
  | succ g ih =>
    intro f2 cs h1 h2
    cases cs with
    | nil => cases f2 <;> rfl
    | cons c cs' =>
      cases f2 with
      | zero => simp at h2
      | succ g2 =>
        have h1' : cs'.length ≤ g := by simpa using h1
        have h2' : cs'.length ≤ g2 := by simpa using h2
        by_cases hc : c = '@'
        · subst hc
          cases hfc : findClose cs' with
          | none =>
            rw [inlineAux_at_none g cs' hfc, inlineAux_at_none g2 cs' hfc,
              ih g2 cs' h1' h2']
          | some p =>
            obtain ⟨inner, rest⟩ := p
            have heq := (findClose_some_eq cs' inner rest hfc).1
            have hrest : rest.length ≤ cs'.length := by
              rw [heq]
              simp only [List.length_append, List.length_cons]
              omega
            rw [inlineAux_at_some g cs' inner rest hfc,
              inlineAux_at_some g2 cs' inner rest hfc,
              ih g2 rest (le_trans hrest h1') (le_trans hrest h2')]
        · rw [inlineAux_cons_ne g c cs' hc, inlineAux_cons_ne g2 c cs' hc,
            ih g2 cs' h1' h2']

theorem inlineAux_eq_convert (fuel : Nat) (cs : List Char) (h : cs.length ≤ fuel) :
    inlineAux fuel cs = convert_inline_code cs :=
  inlineAux_congr fuel cs.length cs h le_rfl

theorem inlineAux_no_at :
    ∀ (fuel : Nat) (cs : List Char), '@' ∉ cs → inlineAux fuel cs = cs := by
  intro fuel
  induction fuel with
  | zero => intro cs _; rfl
  | succ g ih =>
    intro cs h
    cases cs with
    | nil => rfl
    | cons c cs' =>
      have hc : c ≠ '@' := fun e => h (by simp [e])
      rw [inlineAux_cons_ne g c cs' hc]
      rw [ih cs' (fun e => h (by simp [e]))]

/-- C8: inline-code conversion replaces every non-greedy `@...@` span in a
line with `[code]INNER[/code]`, `INNER` being the exact captured text: a line
with no `@` at all gains no insertion (first conjunct); a span preceded by an
`@`-free prefix is converted in place — exact inner text, scanning continuing
after the closing `@`, so multiple spans convert independently, left to
right, non-overlapping (second conjunct); an empty span produces
`[code][/code]` (third conjunct); two spans on one line both convert (fourth
conjunct). -/
theorem claim_C8_inline_code_spans :
    (∀ cs, '@' ∉ cs → convert_inline_code cs = cs) ∧
    (∀ pre inner post, '@' ∉ pre → '@' ∉ inner → '\n' ∉ inner →
      convert_inline_code (pre ++ '@' :: inner ++ '@' :: post) =
        pre ++ "[code]".data ++ inner ++ "[/code]".data ++
          convert_inline_code post) ∧
    convert_inline_code "@@".data = "[code][/code]".data ∧
    convert_inline_code "text @X@ more @Y@".data =
      "text [code]X[/code] more [code]Y[/code]".data := by
  refine ⟨?_, ?_, rfl, rfl⟩
  · intro cs h
    exact inlineAux_no_at cs.length cs h
  · intro pre inner post
    induction pre with
    | nil =>
      intro _ hin hnl
      show convert_inline_code ('@' :: (inner ++ '@' :: post)) =
        [] ++ "[code]".data ++ inner ++ "[/code]".data ++ convert_inline_code post
      unfold convert_inline_code
      rw [List.length_cons,
        inlineAux_at_some _ _ inner post (findClose_append inner post hin hnl),
        inlineAux_congr (inner ++ '@' :: post).length post.length post
          (by simp only [List.length_append, List.length_cons]; omega) le_rfl]
      simp
    | cons p pre' ih =>
      intro hpre hin hnl
      have hp : p ≠ '@' := fun e => hpre (by simp [e])
      have hpre' : '@' ∉ pre' := fun e => hpre (by simp [e])
      show convert_inline_code (p :: (pre' ++ '@' :: inner ++ '@' :: post)) =
        (p :: pre') ++ "[code]".data ++ inner ++ "[/code]".data ++
          convert_inline_code post
      unfold convert_inline_code
      rw [List.length_cons, inlineAux_cons_ne _ p _ hp,
        inlineAux_congr (pre' ++ '@' :: inner ++ '@' :: post).length
          (pre' ++ '@' :: inner ++ '@' :: post).length _ le_rfl le_rfl]
      have := ih hpre' hin hnl
      unfold convert_inline_code at this
      rw [this]
      simp

/-- C8 witness: the no-`@` rule at `"plain text"` and the span rule at
`"ab@cd@ef"`. -/
theorem claim_C8_inline_code_spans_witness :
    convert_inline_code "plain text".data = "plain text".data ∧
    convert_inline_code ("ab".data ++ '@' :: "cd".data ++ '@' :: "ef".data) =
      "ab".data ++ "[code]".data ++ "cd".data ++ "[/code]".data ++
        convert_inline_code "ef".data :=
  ⟨claim_C8_inline_code_spans.1 "plain text".data (by decide),
   claim_C8_inline_code_spans.2.1 "ab".data "cd".data "ef".data
     (by decide) (by decide) (by decide)⟩

/-! ### Claim C9 -/

theorem stepLine_total (lines : List (List Char)) (stack : List Char)
    (raw : List Char) (hinv : lines ≠ [] ∨ stack = []) :
    ∃ p, stepLine lines stack raw = some p ∧ (p.1 ≠ [] ∨ p.2 = []) := by
  cases hmo : matchListItem raw with
  | some mc =>
    obtain ⟨m0, c0⟩ := mc
    refine ⟨(("[*]".data ++ convert_inline_code (stripPy c0)) ::
      (sync_list_levels lines stack m0).1, (sync_list_levels lines stack m0).2),
      ?_, Or.inl (by simp)⟩
    unfold stepLine
    rw [hmo]
  | none =>
    by_cases h1 : stack ≠ [] ∧ stripPy raw ≠ []
    · cases hl : lines with
      | nil =>
        exfalso
        rcases hinv with h | h
        · exact h hl
        · exact h1.1 h
      | cons prev rest =>
        refine ⟨((prev ++ '\n' :: convert_inline_code (stripPy raw)) :: rest, stack),
          ?_, Or.inl (by simp)⟩
        unfold stepLine
        rw [hmo, if_pos h1]
    · by_cases h2 : stack ≠ [] ∧ stripPy raw = []
      · refine ⟨close_list_stack lines stack, ?_, Or.inr rfl⟩
        unfold stepLine
        rw [hmo, if_neg h1, if_pos h2]
      · refine ⟨(convert_line raw :: lines, stack), ?_, Or.inl (by simp)⟩
        unfold stepLine
        rw [hmo, if_neg h1, if_neg h2]

theorem runLines_total :
    ∀ (ls : List (List Char)) (lines : List (List Char)) (stack : List Char),
      (lines ≠ [] ∨ stack = []) → ∃ q, runLines ls lines stack = some q := by
  intro ls
  induction ls with
  | nil => intro lines stack _; exact ⟨(lines, stack), rfl⟩
  | cons l ls' ih =>
    intro lines stack hinv
    obtain ⟨p, hp, hpinv⟩ := stepLine_total lines stack l hinv
    obtain ⟨q, hq⟩ := ih p.1 p.2 hpinv
    refine ⟨q, ?_⟩
    unfold runLines
    rw [hp]
    exact hq

/-- C9: `convert` is total over all string inputs — it returns a string for
every input, the modelled `IndexError` of `converted_lines[-1]` being
unreachable (first conjunct); the empty string yields the empty string
(second conjunct); malformed or unmatched markup — an unterminated inline
delimiter, an unterminated code block, an out-of-range heading level — is
passed through as literal text, never rejected (remaining conjuncts). -/
theorem claim_C9_totality :
    (∀ text, (convert text).isSome = true) ∧
    convert "" = some "" ∧
    convert "@unterminated" = some "@unterminated" ∧
    convert "<pre><code>no close" = some "<pre><code>no close" ∧
    convert "h7. not a heading" = some "h7. not a heading" := by
  refine ⟨?_, rfl, rfl, rfl, rfl⟩
  intro text
  obtain ⟨q, hq⟩ :=
    runLines_total (splitlines (replace_code_blocks text.data)) [] [] (Or.inr rfl)
  unfold convert convertState
  rw [hq]
  rfl

theorem space_not_marker (x : Char) (h : isPySpace x = true) :
    ((x = '#' : Bool) || (x = '*' : Bool)) = false := by
  by_cases h1 : x = '#'
  · subst h1; exact absurd h (by decide)
  · by_cases h2 : x = '*'
    · subst h2; exact absurd h (by decide)
    · simp [h1, h2]

theorem matchListItem_intro (m w c : List Char) (hm : m ≠ [])
    (hmk : ∀ x ∈ m, x = '#' ∨ x = '*') (hw : w ≠ [])
    (hws : ∀ x ∈ w, isPySpace x = true)
    (hc : ∀ x, c.head? = some x → isPySpace x = false) :
    matchListItem (m ++ w ++ c) = some (m, c) := by
  cases w with
  | nil => exact absurd rfl hw
  | cons w0 w' =>
    have hw0 : isPySpace w0 = true := hws w0 (by simp)
    have hmkb : ∀ x ∈ m, ((x = '#' : Bool) || (x = '*' : Bool)) = true := by
      intro x hx
      rcases hmk x hx with h | h <;> simp [h]
    have hhf : ∀ x, ((w0 :: w') ++ c).head? = some x →
        ((x = '#' : Bool) || (x = '*' : Bool)) = false := by
      intro x hx
      simp only [List.cons_append, List.head?_cons, Option.some.injEq] at hx
      rw [← hx]
      exact space_not_marker w0 hw0
    have htake : (m ++ (w0 :: w') ++ c).takeWhile
        (fun x => (x = '#' : Bool) || (x = '*' : Bool)) = m := by
      rw [List.append_assoc, takeWhile_append_all _ m _ hmkb,
        takeWhile_nil_of_head _ _ hhf, List.append_nil]
    have hdrop : (m ++ (w0 :: w') ++ c).dropWhile
        (fun x => (x = '#' : Bool) || (x = '*' : Bool)) = (w0 :: w') ++ c := by
      rw [List.append_assoc, dropWhile_append_all _ m _ hmkb,
        dropWhile_self_of_head _ _ hhf]
    have hdrop2 : List.dropWhile isPySpace (w0 :: (w' ++ c)) = c := by
      rw [← List.cons_append, dropWhile_append_all isPySpace (w0 :: w') c hws,
        dropWhile_self_of_head isPySpace c hc]
    have hme : m.isEmpty = false := by
      cases m with
      | nil => exact absurd rfl hm
      | cons a l => rfl
    simp only [matchListItem, htake, hdrop, hme, Bool.false_eq_true, if_false,
      List.cons_append, hw0, if_true, hdrop2]

theorem matchListItem_elim (line m c : List Char)
    (h : matchListItem line = some (m, c)) :
    ∃ w, line = m ++ w ++ c ∧ m ≠ [] ∧
      (∀ x ∈ m, x = '#' ∨ x = '*') ∧ w ≠ [] ∧
      (∀ x ∈ w, isPySpace x = true) ∧
      (∀ x, c.head? = some x → isPySpace x = false) := by
  simp only [matchListItem] at h
  by_cases hms : (line.takeWhile (fun x => (x = '#' : Bool) || (x = '*' : Bool))).isEmpty = true
  · rw [if_pos hms] at h
    exact absurd h (by simp)
  · rw [if_neg hms] at h
    cases hrest : line.dropWhile (fun x => (x = '#' : Bool) || (x = '*' : Bool)) with
    | nil =>
      rw [hrest] at h
      exact absurd h (by simp)
    | cons r0 rtail =>
      rw [hrest] at h
      have h' : (if isPySpace r0 = true then
          some (line.takeWhile (fun x => (x = '#' : Bool) || (x = '*' : Bool)),
            (r0 :: rtail).dropWhile isPySpace)
          else none) = some (m, c) := h
      by_cases hr0 : isPySpace r0 = true
      · rw [if_pos hr0] at h'
        simp only [Option.some.injEq, Prod.mk.injEq] at h'
        obtain ⟨hm, hcc⟩ := h'
        refine ⟨(r0 :: rtail).takeWhile isPySpace, ?_, ?_, ?_, ?_, ?_, ?_⟩
        · rw [← hm, ← hcc, List.append_assoc, List.takeWhile_append_dropWhile,
            ← hrest, List.takeWhile_append_dropWhile]
        · intro he
          rw [← hm] at he
          rw [he] at hms
          exact hms rfl
        · intro x hx
          rw [← hm] at hx
          have := List.mem_takeWhile_imp hx
          simpa using this
        · rw [List.takeWhile_cons_of_pos hr0]
          simp
        · intro x hx
          exact List.mem_takeWhile_imp hx
        · intro x hx
          rw [← hcc] at hx
          exact head?_dropWhile_false isPySpace (r0 :: rtail) x hx
      · rw [if_neg hr0] at h'
        exact absurd h' (by simp)

/-- C3 amended: a line is classified as a list-item line exactly when it
begins with one or more marker characters, each independently `#` or `*` (the
two kinds may be mixed within one run), immediately followed by at least one
whitespace character and then the content — the text after the maximal
whitespace run, which therefore never starts with whitespace.  The captured
markers and content are exactly that decomposition. -/
theorem claim_C3_amended_list_item_rule (line m c : List Char) :
    matchListItem line = some (m, c) ↔
      ∃ w, line = m ++ w ++ c ∧ m ≠ [] ∧
        (∀ x ∈ m, x = '#' ∨ x = '*') ∧ w ≠ [] ∧
        (∀ x ∈ w, isPySpace x = true) ∧
        (∀ x, c.head? = some x → isPySpace x = false) := by
  constructor
  · exact matchListItem_elim line m c
  · intro ⟨w, hline, hm, hmk, hw, hws, hc⟩
    rw [hline]
    exact matchListItem_intro m w c hm hmk hw hws hc

/-- C3 amended witness: the decomposition at the mixed-marker line `"#* x"`. -/
theorem claim_C3_amended_list_item_rule_witness :
    ∃ w, "#* x".data = "#*".data ++ w ++ "x".data ∧ "#*".data ≠ [] ∧
      (∀ x ∈ "#*".data, x = '#' ∨ x = '*') ∧ w ≠ [] ∧
      (∀ x ∈ w, isPySpace x = true) ∧
      (∀ x, "x".data.head? = some x → isPySpace x = false) :=
  (claim_C3_amended_list_item_rule "#* x".data "#*".data "x".data).mp rfl

theorem scanB_nil (fuel : Nat) : scanBodyAux fuel [] = none := by
  cases fuel <;> rfl

theorem scanB_zero (cs : List Char) :
    scanBodyAux 0 cs =
      (dropLitCI closeTag (cs.dropWhile isPySpace)).map (fun rest => ([], rest)) := by
  simp only [scanBodyAux]

theorem scanB_step (fuel : Nat) (c : Char) (cs' : List Char)
    (hd : dropLitCI closeTag ((c :: cs').dropWhile isPySpace) = none) :
    scanBodyAux (fuel + 1) (c :: cs') =
      (scanBodyAux fuel cs').map (fun p => (c :: p.1, p.2)) := by
  simp only [scanBodyAux, hd, Option.elim_none]

theorem scanB_close_step (fuel : Nat) (c : Char) (cs' rest : List Char)
    (hd : dropLitCI closeTag ((c :: cs').dropWhile isPySpace) = some rest) :
    scanBodyAux (fuel + 1) (c :: cs') = some ([], rest) := by
  simp only [scanBodyAux, hd, Option.elim_some]

theorem scanBodyAux_some_nil :
    ∀ (fuel : Nat) (cs r : List Char), scanBodyAux fuel cs = some ([], r) →
      dropLitCI closeTag (cs.dropWhile isPySpace) = some r := by
  intro fuel cs r h
  cases fuel with
  | zero =>
    rw [scanB_zero] at h
    cases hd : dropLitCI closeTag (cs.dropWhile isPySpace) with
    | none => rw [hd] at h; exact absurd h (by simp)
    | some rest =>
      rw [hd] at h
      simp only [Option.map_some', Option.some.injEq, Prod.mk.injEq] at h
      rw [h.2]
  | succ g =>
    cases cs with
    | nil => rw [scanB_nil] at h; exact absurd h (by simp)
    | cons c cs' =>
      cases hd : dropLitCI closeTag ((c :: cs').dropWhile isPySpace) with
      | some rest =>
        rw [scanB_close_step g c cs' rest hd] at h
        simp only [Option.some.injEq, Prod.mk.injEq] at h
        rw [h.2]
      | none =>
        rw [scanB_step g c cs' hd] at h
        exfalso
        cases hrec : scanBodyAux g cs' with
        | none => rw [hrec] at h; exact absurd h (by simp)
        | some p =>
          rw [hrec] at h
          simp only [Option.map_some', Option.some.injEq, Prod.mk.injEq] at h
          exact absurd h.1 (by simp)

theorem scanBodyAux_head :
    ∀ (fuel : Nat) (cs b r : List Char), scanBodyAux fuel cs = some (b, r) →
      ∀ x, b.head? = some x → cs.head? = some x := by
  intro fuel cs b r h x hx
  cases fuel with
  | zero =>
    rw [scanB_zero] at h
    cases hd : dropLitCI closeTag (cs.dropWhile isPySpace) with
    | none => rw [hd] at h; exact absurd h (by simp)
    | some rest =>
      rw [hd] at h
      simp only [Option.map_some', Option.some.injEq, Prod.mk.injEq] at h
      rw [← h.1] at hx
      exact absurd hx (by simp)
  | succ g =>
    cases cs with
    | nil => rw [scanB_nil] at h; exact absurd h (by simp)
    | cons c cs' =>
      cases hd : dropLitCI closeTag ((c :: cs').dropWhile isPySpace) with
      | some rest =>
        rw [scanB_close_step g c cs' rest hd] at h
        simp only [Option.some.injEq, Prod.mk.injEq] at h
        rw [← h.1] at hx
        exact absurd hx (by simp)
      | none =>
        rw [scanB_step g c cs' hd] at h
        cases hrec : scanBodyAux g cs' with
        | none => rw [hrec] at h; exact absurd h (by simp)
        | some p =>
          rw [hrec] at h
          simp only [Option.map_some', Option.some.injEq, Prod.mk.injEq] at h
          rw [← h.1] at hx
          simp only [List.head?_cons, Option.some.injEq] at hx
          simp [hx]

theorem scanBodyAux_getLast :
    ∀ (fuel : Nat) (cs b r : List Char), scanBodyAux fuel cs = some (b, r) →
      ∀ x, b.getLast? = some x → isPySpace x = false := by
  intro fuel
  induction fuel with
  | zero =>
    intro cs b r h x hx
    rw [scanB_zero] at h
    cases hd : dropLitCI closeTag (cs.dropWhile isPySpace) with
    | none => rw [hd] at h; exact absurd h (by simp)
    | some rest =>
      rw [hd] at h
      simp only [Option.map_some', Option.some.injEq, Prod.mk.injEq] at h
      rw [← h.1] at hx
      exact absurd hx (by simp)
  | succ g ih =>
    intro cs b r h x hx
    cases cs with
    | nil => rw [scanB_nil] at h; exact absurd h (by simp)
    | cons c cs' =>
      cases hd : dropLitCI closeTag ((c :: cs').dropWhile isPySpace) with
      | some rest =>
        rw [scanB_close_step g c cs' rest hd] at h
        simp only [Option.some.injEq, Prod.mk.injEq] at h
        rw [← h.1] at hx
        exact absurd hx (by simp)
      | none =>
        rw [scanB_step g c cs' hd] at h
        cases hrec : scanBodyAux g cs' with
        | none => rw [hrec] at h; exact absurd h (by simp)
        | some p =>
          obtain ⟨b1, r1⟩ := p
          rw [hrec] at h
          simp only [Option.map_some', Option.some.injEq, Prod.mk.injEq] at h
          rw [← h.1] at hx
          cases hb1 : b1 with
          | nil =>
            rw [hb1] at hx
            simp only [List.getLast?_singleton, Option.some.injEq] at hx
            rw [← hx]
            rw [hb1] at hrec
            have hcl := scanBodyAux_some_nil g cs' r1 hrec
            by_cases hcsp : isPySpace c = true
            · exfalso
              rw [List.dropWhile_cons_of_pos hcsp, hcl] at hd
              exact absurd hd (by simp)
            · simpa using hcsp
          | cons y ys =>
            rw [hb1] at hx
            rw [List.getLast?_cons_cons] at hx
            rw [hb1] at hrec
            exact ih cs' (y :: ys) r1 hrec x hx

theorem stripNewlines_of_no_ws (b : List Char)
    (hh : ∀ x, b.head? = some x → isPySpace x = false)
    (hl : ∀ x, b.getLast? = some x → isPySpace x = false) :
    stripNewlines b = b := by
  unfold stripNewlines
  have h1 : b.dropWhile (fun c => (c = '\n' : Bool)) = b := by
    refine dropWhile_self_of_head _ b (fun x hx => ?_)
    have hns := hh x hx
    by_cases hxe : x = '\n'
    · rw [hxe] at hns; exact absurd hns (by decide)
    · simp [hxe]
  rw [h1]
  have h2 : b.reverse.dropWhile (fun c => (c = '\n' : Bool)) = b.reverse := by
    refine dropWhile_self_of_head _ b.reverse (fun x hx => ?_)
    rw [List.head?_reverse] at hx
    have hns := hl x hx
    by_cases hxe : x = '\n'
    · rw [hxe] at hns; exact absurd hns (by decide)
    · simp [hxe]
  rw [h2, List.reverse_reverse]

theorem body_from_scan (cs3 b r : List Char)
    (hsc : scanBodyAux (cs3.dropWhile isPySpace).length (cs3.dropWhile isPySpace) =
      some (b, r)) :
    (∀ x, b.head? = some x → isPySpace x = false) ∧
    (∀ x, b.getLast? = some x → isPySpace x = false) ∧
    stripNewlines b = b := by
  have hh : ∀ x, b.head? = some x → isPySpace x = false := by
    intro x hx
    have h2 := scanBodyAux_head _ _ b r hsc x hx
    exact head?_dropWhile_false isPySpace cs3 x h2
  have hl : ∀ x, b.getLast? = some x → isPySpace x = false :=
    fun x hx => scanBodyAux_getLast _ _ b r hsc x hx
  exact ⟨hh, hl, stripNewlines_of_no_ws b hh hl⟩

/-- C4 amended: for every matched `<pre><code>…</code></pre>` span, the
pattern's `\s*` on each side of the lazy body strips all surrounding
whitespace adjacent to the delimiters — newlines, but also spaces, tabs and
the other whitespace characters — from the captured body: the captured body
never starts or ends with a whitespace character, and the source's
`strip("\n")` on it is therefore the identity. -/
theorem claim_C4_amended_body_trim (cs : List Char)
    (lang : Option (List Char)) (body rest : List Char)
    (h : matchCodeBlockAt cs = some (lang, body, rest)) :
    (∀ x, body.head? = some x → isPySpace x = false) ∧
    (∀ x, body.getLast? = some x → isPySpace x = false) ∧
    stripNewlines body = body := by
  unfold matchCodeBlockAt at h
  cases hdl : dropLitCI "<pre><code".data cs with
  | none => rw [hdl] at h; exact absurd h (by simp)
  | some cs1 =>
    rw [hdl] at h
    simp only [Option.some_bind] at h
    split at h
    · -- the class group matched
      split at h
      · -- `>` follows the closing quote
        cases hsc : scanBodyAux _ _ with
        | none =>
          rw [hsc] at h
          exact absurd h (by simp)
        | some p =>
          obtain ⟨b0, r0⟩ := p
          rw [hsc] at h
          simp only [Option.map_some', Option.some.injEq, Prod.mk.injEq] at h
          obtain ⟨-, hb, -⟩ := h
          rw [← hb]
          exact body_from_scan _ b0 r0 hsc
      · exact absurd h (by simp)
    · -- no class group: `>` follows directly
      split at h
      · cases hsc : scanBodyAux _ _ with
        | none =>
          rw [hsc] at h
          exact absurd h (by simp)
        | some p =>
          obtain ⟨b0, r0⟩ := p
          rw [hsc] at h
          simp only [Option.map_some', Option.some.injEq, Prod.mk.injEq] at h
          obtain ⟨-, hb, -⟩ := h
          rw [← hb]
          exact body_from_scan _ b0 r0 hsc
      · exact absurd h (by simp)

/-- C4 amended witness: at `<pre><code>\t x \t</code></pre>` the captured
body is `x`, free of surrounding whitespace, and `strip("\n")` leaves it
unchanged. -/
theorem claim_C4_amended_body_trim_witness :
    (∀ x, "x".data.head? = some x → isPySpace x = false) ∧
    (∀ x, "x".data.getLast? = some x → isPySpace x = false) ∧
    stripNewlines "x".data = "x".data :=
  claim_C4_amended_body_trim "<pre><code>\t x \t</code></pre>".data
    none "x".data [] rfl

/-- C6 witness: the general some-language rendering applied to the concrete
class value `PyThOn` and body `x`. -/
theorem claim_C6_code_block_rendering_witness :
    to_bbcode (some "PyThOn".data) "x".data =
      List.intercalate ['\n'] ["[CODE]".data,
        "&#91;code=".data ++ escape_bbcode ("PyThOn".data.map toLowerPy) ++
          "&#93;".data,
        stripNewlines "x".data, "&#91;/code&#93;".data, "[/CODE]".data] :=
  claim_C6_code_block_rendering.2.2.2.2 "PyThOn".data "x".data (by decide)

/-- C10 amended: `convert` splits its input on every universal line separator
recognised by Python's `splitlines` — `\n`, `\r\n` (as one boundary), `\r`,
`\x0b`, `\x0c`, `\x1c`, `\x1d`, `\x1e`, `\x85`, U+2028, U+2029 — and
rejoins the output lines with `\n` only, so non-`\n` separators are
normalized to `\n` and a single trailing separator is dropped
(`convert "a\n" = "a"`); the output can still end with `\n` when the input
ends with two or more separators, the last split line then being empty
(`convert "a\n\n" = "a\n"`). -/
theorem claim_C10_amended_line_splitting :
    convert "a\nb" = some "a\nb" ∧
    convert "a\r\nb" = some "a\nb" ∧
    convert "a\rb" = some "a\nb" ∧
    convert "a\x0bb" = some "a\nb" ∧
    convert "a\x0cb" = some "a\nb" ∧
    convert "a\x1cb" = some "a\nb" ∧
    convert "a\x1db" = some "a\nb" ∧
    convert "a\x1eb" = some "a\nb" ∧
    convert "a\x85b" = some "a\nb" ∧
    convert "a\u2028b" = some "a\nb" ∧
    convert "a\u2029b" = some "a\nb" ∧
    convert "a\n" = some "a" ∧
    convert "a\r\n" = some "a" ∧
    convert "a\n\n" = some "a\n" :=
  ⟨rfl, rfl, rfl, rfl, rfl, rfl, rfl, rfl, rfl, rfl, rfl, rfl, rfl, rfl⟩
